import Mathlib

/-!
Shallow embedding of the `ln-simulation` payment-channel network simulator
(`network.py`) and a verification of its specification claims.

Python `dict`s that the source mutates through shared object references are
modelled as association lists keyed by `String` (an arena): nodes refer to
channels by channel id, and the `Network` owns the single channel store, so a
mutation through one alias is seen through every alias, as in the source.
Machine-level `float` fee rates are modelled as rationals; Python `int()`
truncation is `pyInt`.
-/

/-- Python `int(q)` on a real value: truncation toward zero. -/
def pyInt (q : ℚ) : ℤ := q.num.tdiv q.den

/-- Exact rational multiplication (an executable form of `a * b`; see
`ratMul_eq`). -/
def ratMul (a b : ℚ) : ℚ := mkRat (a.num * b.num) (a.den * b.den)

theorem ratMul_eq (a b : ℚ) : ratMul a b = a * b := by
  rw [ratMul, Rat.mkRat_eq_div]
  push_cast
  rw [← div_mul_div_comm, Rat.num_div_den, Rat.num_div_den]

/-- Association-list lookup, the model of Python `d[k]` / `k in d`. -/
def alookup {α : Type} (k : String) : List (String × α) → Option α
  | [] => none
  | p :: rest => if k = p.1 then some p.2 else alookup k rest

/-- Association-list value replacement at a key, the model of mutating the
object stored under `k` (the key set is unchanged). -/
def aset {α : Type} (k : String) (v : α) (l : List (String × α)) : List (String × α) :=
  l.map fun p => if p.1 = k then (k, v) else p

/-- `Channel` from `network.py`: two endpoint ids, capacity, the two balances,
fee parameters, the canonical channel id and the accumulated `fee_earned`. -/
structure Channel where
  node_a : String
  node_b : String
  capacity : ℤ
  balance_a : ℤ
  balance_b : ℤ
  base_fee : ℤ
  fee_rate : ℚ
  channel_id : String
  fee_earned : ℤ
deriving DecidableEq

/-- `Channel.calculate_fee`: `base_fee + int(amount * fee_rate)`. -/
def Channel.calculate_fee (c : Channel) (amount : ℤ) : ℤ :=
  c.base_fee + pyInt (ratMul (amount : ℚ) c.fee_rate)

/-- `Channel.can_forward`: balance test on the sending side; `none` models the
`ValueError` raised when `from_node` is not an endpoint. -/
def Channel.can_forward (c : Channel) (from_node : String) (amount : ℤ) : Option Bool :=
  if from_node = c.node_a then some (decide (amount ≤ c.balance_a))
  else if from_node = c.node_b then some (decide (amount ≤ c.balance_b))
  else none

/-- `Channel.update_balances`: silent no-op when the sending side has less than
`amount`; otherwise debit/credit by exactly `amount`. `none` models the
`ValueError` raised when `from_node` is not an endpoint. -/
def Channel.update_balances (c : Channel) (from_node : String) (amount : ℤ) : Option Channel :=
  if from_node = c.node_a then
    if c.balance_a < amount then some c
    else some { c with balance_a := c.balance_a - amount, balance_b := c.balance_b + amount }
  else if from_node = c.node_b then
    if c.balance_b < amount then some c
    else some { c with balance_b := c.balance_b - amount, balance_a := c.balance_a + amount }
  else none

/-- `Channel.get_other_node`, by node id. -/
def Channel.get_other_id (c : Channel) (nid : String) : Option String :=
  if nid = c.node_a then some c.node_b
  else if nid = c.node_b then some c.node_a
  else none

/-- `Node`: its id and the adjacency dict mapping a neighbor id to the id of
the shared channel object connecting to that neighbor. -/
structure Node where
  node_id : String
  channels : List (String × String)
deriving DecidableEq

/-- `Node.add_channel`: fails (`none`, a raised `ValueError`) unless the
channel references this node, and unless no channel to the other endpoint is
registered yet. -/
def Node.add_channel (nd : Node) (ch : Channel) : Option Node :=
  if ch.node_a ≠ nd.node_id ∧ ch.node_b ≠ nd.node_id then none
  else
    match ch.get_other_id nd.node_id with
    | none => none
    | some other =>
      if (alookup other nd.channels).isSome then none
      else some { nd with channels := nd.channels ++ [(other, ch.channel_id)] }

/-- Python string `<`: lexicographic comparison by code point. -/
def charListLt : List Char → List Char → Bool
  | [], [] => false
  | [], _ :: _ => true
  | _ :: _, [] => false
  | a :: as, b :: bs => if a < b then true else if b < a then false else charListLt as bs

/-- Python string `<` on the character data. -/
def pyStrLt (a b : String) : Bool := charListLt a.data b.data

/-- The canonical channel id `f"{min}-{max}"` of an unordered pair (from
`sorted([node_a_id, node_b_id])`). -/
def chanKey (a b : String) : String :=
  if pyStrLt b a then b ++ "-" ++ a else a ++ "-" ++ b

/-- `Network`: the node store and the channel store. -/
structure Network where
  nodes : List (String × Node)
  channels : List (String × Channel)
deriving DecidableEq

/-- `Network.__init__`. -/
def Network.init : Network := ⟨[], []⟩

/-- Replace the channel object stored under `k`. -/
def Network.setChannel (net : Network) (k : String) (c : Channel) : Network :=
  { net with channels := aset k c net.channels }

/-- `Network.add_node`: `false` models the `ValueError` on a duplicate id. -/
def Network.add_node (net : Network) (id : String) : Network × Bool :=
  if (alookup id net.nodes).isSome then (net, false)
  else ({ net with nodes := net.nodes ++ [(id, ⟨id, []⟩)] }, true)

/-- `Network.add_channel`. The returned flag is `true` exactly on the
non-raising run of the source; on a raising run the partially mutated state is
returned with `false` (the source propagates the exception, aborting setup).
When `aId = bId` the second registration sees the node already updated by the
first, as the shared Python object does. -/
def Network.add_channel (net : Network) (aId bId : String) (cap bA bB bf : ℤ) (r : ℚ) :
    Network × Bool :=
  match alookup aId net.nodes, alookup bId net.nodes with
  | some na, some _ =>
    let cid := chanKey aId bId
    if (alookup cid net.channels).isSome then (net, false)
    else if bA + bB ≠ cap then (net, false)
    else
      let ch : Channel := ⟨aId, bId, cap, bA, bB, bf, r, cid, 0⟩
      let net1 : Network := { net with channels := net.channels ++ [(cid, ch)] }
      match na.add_channel ch with
      | none => (net1, false)
      | some na2 =>
        let net2 : Network := { net1 with nodes := aset aId na2 net1.nodes }
        match alookup bId net2.nodes with
        | none => (net2, false)
        | some nb2 =>
          match nb2.add_channel ch with
          | none => (net2, false)
          | some nb3 => ({ net2 with nodes := aset bId nb3 net2.nodes }, true)
  | _, _ => (net, false)

/-- `Node.change_fee` lifted to the owning network (the caller holds a node of
the network and the shared channel object lives in the network's store).
`false` models the raised `ValueError` when no channel to `otherId` exists. -/
def Network.change_fee (net : Network) (nodeId otherId : String) (bf : ℤ) (r : ℚ) :
    Network × Bool :=
  match alookup nodeId net.nodes with
  | none => (net, false)
  | some nd =>
    match alookup otherId nd.channels with
    | none => (net, false)
    | some cid =>
      match alookup cid net.channels with
      | none => (net, false)
      | some ch => (net.setChannel cid { ch with base_fee := bf, fee_rate := r }, true)

/-! ## Path search (`Network.find_path`)

The source runs a `heapq`-driven Dijkstra backward from the receiver.  The
heap is modelled as a list from which `popMin` extracts the minimum under the
lexicographic order on `(dist, node_id)` — exactly the order `heapq` pops
`(int, str)` tuples, and equal tuples are indistinguishable.  `dist` maps a
node id to its tentative label, `none` standing for `float('inf')`; `pred`
holds the predecessor links.  The while-loop is given explicit fuel; fuel
exhaustion is reported as not-found, and every terminating run of the source
is reproduced by a sufficiently large fuel. -/

/-- Strict lexicographic order on heap entries `(dist, node_id)`. -/
def pqLt (x y : ℤ × String) : Bool :=
  if x.1 < y.1 then true
  else if x.1 = y.1 then pyStrLt x.2 y.2
  else false

/-- The minimum entry of `m :: l` under `pqLt`. -/
def listMin : (ℤ × String) → List (ℤ × String) → (ℤ × String)
  | m, [] => m
  | m, x :: xs => listMin (if pqLt x m then x else m) xs

/-- Remove the first occurrence of `e`. -/
def eraseFirst : (ℤ × String) → List (ℤ × String) → List (ℤ × String)
  | _, [] => []
  | e, x :: xs => if x = e then xs else x :: eraseFirst e xs

/-- `heapq.heappop`: extract an entry with the least `(dist, node_id)`. -/
def popMin (pq : List (ℤ × String)) : Option ((ℤ × String) × List (ℤ × String)) :=
  match pq with
  | [] => none
  | x :: xs =>
    let m := listMin x xs
    some (m, eraseFirst m (x :: xs))

/-- `a < b` where `none` is `float('inf')`. -/
def infLt : Option ℤ → Option ℤ → Bool
  | some a, some b => decide (a < b)
  | some _, none => true
  | none, _ => false

/-- The mutable search state: labels, predecessor links and the heap. -/
def RState : Type := (String → Option ℤ) × (String → Option String) × List (ℤ × String)

/-- One iteration of the inner `for v in ...get_neighbors()` body, for the
neighbor entry `q = (v, channel id)` of node `u`.  The `none` fallthroughs on
the channel and node stores are unreachable for networks built through the
construction API, where the adjacency alias and the store agree. -/
def relaxOne (net : Network) (u : String) (q : String × String) (st : RState) : RState :=
  let dist := st.1
  let pred := st.2.1
  let pq := st.2.2
  match alookup q.2 net.channels with
  | none => st
  | some channel =>
    match dist u with
    | none => st
    | some fa =>
      match alookup q.1 net.nodes with
      | none => st
      | some _ =>
        match channel.can_forward q.1 fa with
        | some true =>
          let fee := channel.calculate_fee fa
          let nd := fa + fee
          if infLt (some nd) (dist q.1) then
            (fun x => if x = q.1 then some nd else dist x,
             fun x => if x = q.1 then some u else pred x,
             (nd, q.1) :: pq)
          else st
        | _ => st

/-- The whole neighbor loop of one popped node `u`. -/
def relaxNbrs (net : Network) (u : String) : List (String × String) → RState → RState
  | [], st => st
  | q :: rest, st => relaxNbrs net u rest (relaxOne net u q st)

/-- The `while pq:` loop.  `none` is fuel exhaustion. -/
def fpLoop (net : Network) :
    ℕ → (String → Option ℤ) → (String → Option String) → List (ℤ × String) →
    Option ((String → Option ℤ) × (String → Option String))
  | 0, _, _, _ => none
  | fuel + 1, dist, pred, pq =>
    match popMin pq with
    | none => some (dist, pred)
    | some ((cur_dist, u), rest) =>
      if infLt (dist u) (some cur_dist) then fpLoop net fuel dist pred rest
      else
        let nbrs := match alookup u net.nodes with
          | some nd => nd.channels
          | none => []
        let st := relaxNbrs net u nbrs (dist, pred, rest)
        fpLoop net fuel st.1 st.2.1 st.2.2

/-- The `while current is not None:` reconstruction walk along `pred`. -/
def reconstruct (pred : String → Option String) : ℕ → String → Option (List String)
  | 0, _ => none
  | fuel + 1, cur =>
    match pred cur with
    | none => some [cur]
    | some nxt => (reconstruct pred fuel nxt).map (cur :: ·)

/-- The result dict `{'path': ..., 'total_cost': ...}` of `find_path`. -/
structure PathInfo where
  path : List String
  total_cost : ℤ
deriving DecidableEq

/-- `Network.find_path`; `none` is the empty (not-found) dict. -/
def Network.find_path (net : Network) (from_id to_id : String) (amount : ℤ) (fuel : ℕ) :
    Option PathInfo :=
  if (alookup from_id net.nodes).isNone || (alookup to_id net.nodes).isNone then none
  else
    match fpLoop net fuel (fun x => if x = to_id then some amount else none)
        (fun _ => none) [(amount, to_id)] with
    | none => none
    | some (dist, pred) =>
      match dist from_id with
      | none => none
      | some total =>
        match reconstruct pred (net.nodes.length + 1) from_id with
        | none => none
        | some path => if path.getLast? = some to_id then some ⟨path, total⟩ else none

/-! ## Payment execution (`Network.execute_payment`) -/

/-- How the hop-walk of `execute_payment` ended.  `missingChannel` is the
`if not channel: return False, 0` abort; `missingNode` the `KeyError` on
`self.nodes[sender_id]`; `badEndpoint` the `ValueError` inside
`update_balances`. -/
inductive HopOutcome
  | ok
  | missingChannel
  | missingNode
  | badEndpoint
deriving DecidableEq

/-- The `for i in range(len(path) - 1, 0, -1)` walk, from the receiver end
back to the sender end, threading the mutated network and `current_amount`.
The returned network holds every mutation applied before a stop. -/
def execHops : Network → ℤ → List (String × String) → Network × HopOutcome
  | net, _, [] => (net, .ok)
  | net, cur, (s, r) :: rest =>
    match alookup (chanKey s r) net.channels with
    | none => (net, .missingChannel)
    | some ch =>
      let fee := ch.calculate_fee cur
      let fwd := cur + fee
      match alookup s net.nodes with
      | none => (net, .missingNode)
      | some _ =>
        match ch.update_balances s fwd with
        | none => (net, .badEndpoint)
        | some ch2 =>
          let ch3 := { ch2 with fee_earned := ch2.fee_earned + fee }
          execHops (net.setChannel (chanKey s r) ch3) fwd rest

/-- `execute_payment` including the state it leaves behind on every outcome:
`none` in the second component means `find_path` returned the empty dict. -/
def Network.execute_payment_run (net : Network) (from_id to_id : String) (amount : ℤ)
    (fuel : ℕ) : Network × Option (HopOutcome × ℤ) :=
  match net.find_path from_id to_id amount fuel with
  | none => (net, none)
  | some info =>
    let hops := (info.path.zip info.path.tail).reverse
    let res := execHops net amount hops
    (res.1, some (res.2, info.total_cost - amount))

/-- `Network.execute_payment`: the `(success, total_fees)` return value along
with the mutated network; `none` models a raised exception (`KeyError` /
`ValueError`), which cannot occur on networks built through the construction
API. -/
def Network.execute_payment (net : Network) (from_id to_id : String) (amount : ℤ)
    (fuel : ℕ) : Option (Network × Bool × ℤ) :=
  match net.execute_payment_run from_id to_id amount fuel with
  | (net2, none) => some (net2, false, 0)
  | (net2, some (.ok, fees)) => some (net2, true, fees)
  | (net2, some (.missingChannel, _)) => some (net2, false, 0)
  | (_, some (.missingNode, _)) => none
  | (_, some (.badEndpoint, _)) => none

/-! ## Transaction manager (`TransactionManager`) -/

/-- A queued `(from_id, to_id, amount)` triple. -/
abbrev Tx : Type := String × String × ℤ

/-- `TransactionManager`: the shared network, the pending queue and the log. -/
structure TransactionManager where
  network : Network
  transaction_queue : List Tx
  log : List String
deriving DecidableEq

/-- `TransactionManager.add_transaction`. -/
def TransactionManager.add_transaction (tm : TransactionManager) (fromId toId : String)
    (amount : ℤ) : TransactionManager :=
  { tm with transaction_queue := tm.transaction_queue ++ [(fromId, toId, amount)] }

/-- The success line of `process_tx`. -/
def successLine (f t : String) (a fees : ℤ) : String :=
  "Transaction " ++ f ++ " -> " ++ t ++ " (" ++ toString a ++ " sat, total fees: " ++
    toString fees ++ " sat): Success"

/-- The failure line of `process_tx`. -/
def failLine (f t : String) (a : ℤ) : String :=
  "Transaction " ++ f ++ " -> " ++ t ++ " (" ++ toString a ++ " sat): Failed"

/-- `TransactionManager.process_tx`; `none` propagates an exception raised by
`execute_payment`. -/
def TransactionManager.process_tx (tm : TransactionManager) (fromId toId : String)
    (amount : ℤ) (fuel : ℕ) : Option TransactionManager :=
  match tm.network.execute_payment fromId toId amount fuel with
  | none => none
  | some (net2, success, fees) =>
    let result := if success then successLine fromId toId amount fees
      else failLine fromId toId amount
    some { tm with network := net2, log := tm.log ++ [result] }

/-- The sequential `for tx in self.transaction_queue:` loop. -/
def simLoop (fuel : ℕ) : TransactionManager → List Tx → Option TransactionManager
  | tm, [] => some tm
  | tm, (f, t, a) :: rest =>
    match tm.process_tx f t a fuel with
    | none => none
    | some tm2 => simLoop fuel tm2 rest

/-- `TransactionManager.simulate`.  Only the deterministic sequential mode is
modelled; the `concurrent=True` mode starts unsynchronized threads, whose
interleavings are outside this model, so it is mapped to `none`. -/
def TransactionManager.simulate (tm : TransactionManager) (concurrent : Bool) (fuel : ℕ) :
    Option (TransactionManager × List String) :=
  if concurrent then none
  else
    match simLoop fuel { tm with log := [] } tm.transaction_queue with
    | none => none
    | some tm1 => some ({ tm1 with transaction_queue := [] }, tm1.log)

/-! ## The operation alphabet of the specification's invariant claims -/

/-- One engine operation, as enumerated by the invariant claims. -/
inductive Op
  | addNode (id : String)
  | addChannel (aId bId : String) (cap bA bB bf : ℤ) (r : ℚ)
  | changeFee (nodeId otherId : String) (bf : ℤ) (r : ℚ)
  | findPath (s t : String) (a : ℤ)
  | executePayment (s t : String) (a : ℤ)
  | simulate (txs : List Tx)

/-- The network state after an operation, including the state a raising run
leaves behind (the source keeps every mutation applied before a raise). -/
def applyOp (fuel : ℕ) : Op → Network → Network
  | .addNode i, net => (net.add_node i).1
  | .addChannel aId bId cap bA bB bf r, net => (net.add_channel aId bId cap bA bB bf r).1
  | .changeFee nodeId otherId bf r, net => (net.change_fee nodeId otherId bf r).1
  | .findPath _ _ _, net => net
  | .executePayment s t a, net => (net.execute_payment_run s t a fuel).1
  | .simulate txs, net =>
    txs.foldl (fun n tx => (n.execute_payment_run tx.1 tx.2.1 tx.2.2 fuel).1) net

/-- A whole operation sequence. -/
def applyOps (fuel : ℕ) (ops : List Op) (net : Network) : Network :=
  ops.foldl (fun n op => applyOp fuel op n) net

/-- The non-negativity side conditions the invariant claims put on the inputs
of each operation. -/
def OpValid : Op → Prop
  | .addNode _ => True
  | .addChannel _ _ _ bA bB bf r => 0 ≤ bA ∧ 0 ≤ bB ∧ 0 ≤ bf ∧ 0 ≤ r
  | .changeFee _ _ bf r => 0 ≤ bf ∧ 0 ≤ r
  | .findPath _ _ _ => True
  | .executePayment _ _ a => 0 ≤ a
  | .simulate txs => ∀ tx ∈ txs, 0 ≤ tx.2.2

instance : DecidablePred OpValid := by
  intro op
  cases op <;> simp only [OpValid] <;> infer_instance

/-- The per-channel state invariant: balances split the capacity, balances are
non-negative, and the fee parameters are non-negative. -/
def ChannelInv (c : Channel) : Prop :=
  c.balance_a + c.balance_b = c.capacity ∧ 0 ≤ c.balance_a ∧ 0 ≤ c.balance_b ∧
    0 ≤ c.base_fee ∧ 0 ≤ c.fee_rate

instance : DecidablePred ChannelInv := by
  intro c
  simp only [ChannelInv]
  infer_instance

/-- Every channel of the network satisfies `ChannelInv`. -/
def NetInv (net : Network) : Prop := ∀ p ∈ net.channels, ChannelInv p.2

instance : DecidablePred NetInv := by
  intro net
  simp only [NetInv]
  infer_instance

/-! ## Well-formedness of constructor-built networks -/

/-- The channel store holds, under `cid`, a channel whose endpoints are
exactly `{u, v}`. -/
def chanEndpointsOK (net : Network) (u v cid : String) : Bool :=
  match alookup cid net.channels with
  | none => false
  | some ch => (ch.node_a == u && ch.node_b == v) || (ch.node_a == v && ch.node_b == u)

/-- One adjacency entry `q = (neighbor, channel id)` of node `u` is backed by
the stores: the id is the canonical key, the neighbor exists, and the shared
channel object exists with the right endpoints. -/
def adjEntryOK (net : Network) (u : String) (q : String × String) : Prop :=
  q.2 = chanKey u q.1 ∧ (alookup q.1 net.nodes).isSome = true ∧
    chanEndpointsOK net u q.1 q.2 = true

/-- Every adjacency entry of every node is backed by the stores. -/
def WFNet (net : Network) : Prop :=
  ∀ p ∈ net.nodes, ∀ q ∈ p.2.channels, adjEntryOK net p.1 q

/-- Every stored node carries the id it is keyed by. -/
def NodeIdsOK (net : Network) : Prop := ∀ p ∈ net.nodes, p.2.node_id = p.1

instance : DecidablePred (fun n => WFNet n) := by
  intro net
  simp only [WFNet, adjEntryOK]
  infer_instance

instance : DecidablePred (fun n => NodeIdsOK n) := by
  intro net
  simp only [NodeIdsOK]
  infer_instance

/-- The networks produced by non-raising runs of `add_node` / `add_channel`
alone — the construction API of §6. -/
inductive BuiltBy : Network → Prop
  | init : BuiltBy Network.init
  | addNode (net : Network) (id : String) (h : BuiltBy net)
      (hok : (net.add_node id).2 = true) : BuiltBy (net.add_node id).1
  | addChannel (net : Network) (aId bId : String) (cap bA bB bf : ℤ) (r : ℚ)
      (h : BuiltBy net) (hok : (net.add_channel aId bId cap bA bB bf r).2 = true) :
      BuiltBy (net.add_channel aId bId cap bA bB bf r).1

/-! ## Concrete scenario networks -/

/-- The three-node scenario network of the end-to-end claim: `A-B` with
capacity 1000, balances `(500, 500)`, fees `(0, 0)`; `B-C` with capacity 1000,
balances `(500, 500)`, base fee 10, fee rate `0.01`. -/
def net3 : Network :=
  (((((Network.init.add_node "A").1.add_node "B").1.add_node "C").1.add_channel
    "A" "B" 1000 500 500 0 0).1.add_channel "B" "C" 1000 500 500 10 (mkRat 1 100)).1

/-- A one-node network, for the degenerate `sender == receiver` case. -/
def netA : Network := (Network.init.add_node "A").1

/-- A scenario in which the search admits a hop (its balance covers the label,
100) but execution forwards label plus fee (110) over it: `B-C` holds only 105
on B's side.  The hop's balance update is then a silent no-op while its fee is
still added to `fee_earned`. -/
def netSilent : Network :=
  (((((Network.init.add_node "A").1.add_node "B").1.add_node "C").1.add_channel
    "A" "B" 2000 1000 1000 0 0).1.add_channel "B" "C" 200 105 95 10 0).1

/-- A sample channel with base fee 2 and fee rate `1/2`. -/
def chW : Channel := ⟨"A", "B", 10, 4, 6, 2, mkRat 1 2, "A-B", 0⟩

/-- A sample construction-and-payment operation sequence. -/
def opsW : List Op :=
  [Op.addNode "A", Op.addNode "B", Op.addNode "C",
   Op.addChannel "A" "B" 1000 500 500 0 0,
   Op.addChannel "B" "C" 1000 500 500 10 (mkRat 1 100),
   Op.changeFee "A" "B" 3 (mkRat 1 50),
   Op.findPath "A" "C" 100,
   Op.executePayment "A" "C" 100,
   Op.simulate [("A", "C", 50), ("C", "A", 25)]]

/-- A transaction manager holding the end-to-end scenario payment. -/
def tmW : TransactionManager :=
  ⟨net3, [("A", "C", 100), ("A", "C", 10000)], ["stale entry"]⟩

/-- The manager state after sequentially simulating `tmW`. -/
def tmW2 : TransactionManager := ((tmW.simulate false 10).getD (tmW, [])).1

/-- The log returned by sequentially simulating `tmW`. -/
def logW : List String := ((tmW.simulate false 10).getD (tmW, [])).2

/-- The state of `net3` after the successful scenario payment: a post-payment
state (`B-C` carries `fee_earned = 11`), no longer freshly constructed. -/
def net3post : Network := (net3.execute_payment_run "A" "C" 100 10).1

/-- The network component returned by a failed oversized payment on
`net3post`. -/
def net3fail : Network :=
  ((net3post.execute_payment "A" "C" 10000 20).getD (Network.init, false, 0)).1

/-! ## Derived notions used by the claim statements -/

/-- The network state after sequentially executing a list of transactions
(the state component of the sequential simulation). -/
def netAfter (fuel : ℕ) (net : Network) (txs : List Tx) : Network :=
  txs.foldl (fun n tx => (n.execute_payment_run tx.1 tx.2.1 tx.2.2 fuel).1) net

/-- The log line `process_tx` appends for one transaction executed against
`net`. -/
def txLine (net : Network) (tx : Tx) (fuel : ℕ) : String :=
  match net.execute_payment tx.1 tx.2.1 tx.2.2 fuel with
  | some (_, true, fees) => successLine tx.1 tx.2.1 tx.2.2 fees
  | _ => failLine tx.1 tx.2.1 tx.2.2

/-- The sequence of log lines produced by sequentially executing `txs`. -/
def logOf (fuel : ℕ) (net : Network) : List Tx → List String
  | [] => []
  | tx :: rest =>
    txLine net tx fuel :: logOf fuel (net.execute_payment_run tx.1 tx.2.1 tx.2.2 fuel).1 rest

/-- `v` is recorded as a neighbor of `u`: some adjacency entry of the stored
node `u` points at `v`. -/
def EdgeOK (net : Network) (u v : String) : Prop :=
  ∃ nd cid, alookup u net.nodes = some nd ∧ (v, cid) ∈ nd.channels

/-- Every predecessor link points along a recorded adjacency edge. -/
def PredInv (net : Network) (pred : String → Option String) : Prop :=
  ∀ v u, pred v = some u → EdgeOK net u v

/-- What one hop `(s, r)` of the execution walk needs: the sender exists, and
the channel store holds the canonical key with `s` as an endpoint. -/
def HopOK (net : Network) (s r : String) : Prop :=
  (alookup s net.nodes).isSome = true ∧
    ∃ ch, alookup (chanKey s r) net.channels = some ch ∧ (ch.node_a = s ∨ ch.node_b = s)

/-! ## Association-list facts -/

theorem alookup_nil {α : Type} (k : String) : alookup (α := α) k [] = none := rfl

theorem alookup_cons {α : Type} (k : String) (p : String × α) (rest : List (String × α)) :
    alookup k (p :: rest) = if k = p.1 then some p.2 else alookup k rest := rfl

theorem alookup_mem {α : Type} {k : String} {v : α} :
    ∀ {l : List (String × α)}, alookup k l = some v → (k, v) ∈ l := by
  intro l
  induction l with
  | nil => intro h; simp [alookup_nil] at h
  | cons p rest ih =>
    intro h
    rw [alookup_cons] at h
    split at h
    · rename_i he
      cases h
      exact he ▸ List.mem_cons_self _ _
    · exact List.mem_cons_of_mem _ (ih h)

theorem alookup_append_some {α : Type} {k : String} {v : α} {l l2 : List (String × α)}
    (h : alookup k l = some v) : alookup k (l ++ l2) = some v := by
  induction l with
  | nil => simp [alookup_nil] at h
  | cons p rest ih =>
    rw [alookup_cons] at h
    rw [List.cons_append, alookup_cons]
    split at h <;> rename_i hk
    · rw [if_pos hk, h]
    · rw [if_neg hk]
      exact ih h

theorem alookup_append_none {α : Type} {k : String} {l l2 : List (String × α)}
    (h : alookup k l = none) : alookup k (l ++ l2) = alookup k l2 := by
  induction l with
  | nil => rfl
  | cons p rest ih =>
    rw [alookup_cons] at h
    rw [List.cons_append, alookup_cons]
    split at h <;> rename_i hk
    · cases h
    · rw [if_neg hk]
      exact ih h

theorem alookup_aset {α : Type} (k k2 : String) (v : α) :
    ∀ (l : List (String × α)),
      alookup k (aset k2 v l) =
        if k = k2 then (alookup k l).map (fun _ => v) else alookup k l := by
  intro l
  induction l with
  | nil => simp [alookup_nil, aset]
  | cons p rest ih =>
    rw [aset, List.map_cons, ← aset]
    by_cases hp : p.1 = k2 <;> by_cases hk2 : k = k2 <;>
      simp only [alookup_cons, hp, hk2, ih, if_pos rfl, if_true, if_false] <;>
      by_cases hk : k = p.1 <;>
      simp_all
theorem alookup_isSome_aset {α : Type} (k k2 : String) (v : α) (l : List (String × α)) :
    (alookup k (aset k2 v l)).isSome = (alookup k l).isSome := by
  rw [alookup_aset]
  split
  · cases alookup k l <;> rfl
  · rfl

/-! ## Fee arithmetic -/

theorem pyInt_eq_floor {q : ℚ} (h : 0 ≤ q) : pyInt q = ⌊q⌋ := by
  rw [pyInt, Rat.floor_def]
  exact Int.tdiv_eq_ediv (Rat.num_nonneg.mpr h) (Int.natCast_nonneg _)

theorem pyInt_nonneg {q : ℚ} (h : 0 ≤ q) : 0 ≤ pyInt q :=
  Int.tdiv_nonneg (Rat.num_nonneg.mpr h) (Int.natCast_nonneg _)

theorem calculate_fee_eq_floor (c : Channel) (a : ℤ) (ha : 0 ≤ a) (hr : 0 ≤ c.fee_rate) :
    c.calculate_fee a = c.base_fee + ⌊(a : ℚ) * c.fee_rate⌋ := by
  rw [Channel.calculate_fee, ratMul_eq,
    pyInt_eq_floor (mul_nonneg (by exact_mod_cast ha) hr)]

theorem calculate_fee_nonneg (c : Channel) (a : ℤ) (hb : 0 ≤ c.base_fee)
    (hr : 0 ≤ c.fee_rate) (ha : 0 ≤ a) : 0 ≤ c.calculate_fee a := by
  rw [Channel.calculate_fee, ratMul_eq]
  exact add_nonneg hb (pyInt_nonneg (mul_nonneg (by exact_mod_cast ha) hr))

/-- C7: for fixed non-negative `base_fee` and `fee_rate` and non-negative
integer amounts `a ≤ b`, `calculate_fee a = base_fee + ⌊a * fee_rate⌋`, the
fee is non-negative, at least `base_fee`, and monotone: `fee a ≤ fee b`. -/
theorem claim_c7_calculate_fee (c : Channel) (hb : 0 ≤ c.base_fee) (hr : 0 ≤ c.fee_rate)
    (a b : ℤ) (ha : 0 ≤ a) (hab : a ≤ b) :
    c.calculate_fee a = c.base_fee + ⌊(a : ℚ) * c.fee_rate⌋ ∧
      0 ≤ c.calculate_fee a ∧ c.base_fee ≤ c.calculate_fee a ∧
      c.calculate_fee a ≤ c.calculate_fee b := by
  have hfa : 0 ≤ ⌊(a : ℚ) * c.fee_rate⌋ :=
    Int.floor_nonneg.mpr (mul_nonneg (by exact_mod_cast ha) hr)
  refine ⟨calculate_fee_eq_floor c a ha hr, calculate_fee_nonneg c a hb hr ha, ?_, ?_⟩
  · rw [calculate_fee_eq_floor c a ha hr]
    exact Int.le_add_of_nonneg_right hfa
  · rw [calculate_fee_eq_floor c a ha hr, calculate_fee_eq_floor c b (ha.trans hab) hr]
    exact add_le_add_left
      (Int.floor_le_floor (mul_le_mul_of_nonneg_right (by exact_mod_cast hab) hr)) _

/-- Witness for C7 at `chW` with amounts 3 and 5. -/
theorem claim_c7_witness :
    chW.calculate_fee 3 = chW.base_fee + ⌊(3 : ℚ) * chW.fee_rate⌋ ∧
      0 ≤ chW.calculate_fee 3 ∧ chW.base_fee ≤ chW.calculate_fee 3 ∧
      chW.calculate_fee 3 ≤ chW.calculate_fee 5 :=
  claim_c7_calculate_fee chW (by decide) (by decide) 3 5 (by decide) (by decide)

/-- C6: `update_balances` is a silent success-shaped no-op when the sending
side's balance is strictly below `amount`; with sufficient balance it debits
the sender's side and credits the other side by exactly `amount`; and it
signals an invalid-argument error (`none`) when `from_node` is no endpoint. -/
theorem claim_c6_update_balances (c : Channel) (f : String) (amt : ℤ) :
    (f = c.node_a → c.balance_a < amt → c.update_balances f amt = some c) ∧
      (f = c.node_a → amt ≤ c.balance_a → c.update_balances f amt =
        some { c with balance_a := c.balance_a - amt, balance_b := c.balance_b + amt }) ∧
      (f ≠ c.node_a → f = c.node_b → c.balance_b < amt → c.update_balances f amt = some c) ∧
      (f ≠ c.node_a → f = c.node_b → amt ≤ c.balance_b → c.update_balances f amt =
        some { c with balance_b := c.balance_b - amt, balance_a := c.balance_a + amt }) ∧
      (f ≠ c.node_a → f ≠ c.node_b → c.update_balances f amt = none) := by
  refine ⟨?_, ?_, ?_, ?_, ?_⟩ <;> intro h1 h2 <;> try intro h3
  · rw [Channel.update_balances, if_pos h1, if_pos h2]
  · rw [Channel.update_balances, if_pos h1, if_neg (not_lt.mpr h2)]
  · rw [Channel.update_balances, if_neg h1, if_pos h2, if_pos h3]
  · rw [Channel.update_balances, if_neg h1, if_pos h2, if_neg (not_lt.mpr h3)]
  · rw [Channel.update_balances, if_neg h1, if_neg h2]

/-- Witness for C6: the sufficient-balance case of `chW` at amount 3. -/
theorem claim_c6_witness :
    chW.update_balances "A" 3 =
      some { chW with balance_a := chW.balance_a - 3, balance_b := chW.balance_b + 3 } :=
  (claim_c6_update_balances chW "A" 3).2.1 (by decide) (by decide)

/-- C3: the end-to-end scenario.  On `net3` (`A-B`: capacity 1000, balances
`(500, 500)`, fees `(0, 0)`; `B-C`: capacity 1000, balances `(500, 500)`, base
fee 10, fee rate `0.01`), `find_path A C 100` yields path `[A, B, C]` with
total cost 111, `execute_payment A C 100` returns `(true, 11)`, and afterwards
`A-B` holds balances `(389, 611)` with `fee_earned = 0` and `B-C` holds
balances `(389, 611)` with `fee_earned = 11`. -/
theorem claim_c3_scenario :
    net3.find_path "A" "C" 100 10 = some ⟨["A", "B", "C"], 111⟩ ∧
      (net3.execute_payment "A" "C" 100 10).map (fun r => (r.2.1, r.2.2)) =
        some (true, 11) ∧
      ((net3.execute_payment "A" "C" 100 10).bind (fun r => alookup "A-B" r.1.channels)).map
        (fun c => (c.balance_a, c.balance_b, c.fee_earned)) = some (389, 611, 0) ∧
      ((net3.execute_payment "A" "C" 100 10).bind (fun r => alookup "B-C" r.1.channels)).map
        (fun c => (c.balance_a, c.balance_b, c.fee_earned)) = some (389, 611, 11) :=
  ⟨by rfl, by rfl, by rfl, by rfl⟩

/-- C4 as stated is false: with sender equal to receiver and present in the
network, `find_path` does not return not-found — on the one-node network it
returns the degenerate one-node path with `total_cost = amount`. -/
theorem claim_c4_counterexample :
    ¬(netA.find_path "A" "A" 5 10 = none) ∧
      netA.find_path "A" "A" 5 10 = some ⟨["A"], 5⟩ :=
  ⟨by
    intro h
    rw [show netA.find_path "A" "A" 5 10 = some (⟨["A"], 5⟩ : PathInfo) from rfl] at h
    exact Option.noConfusion h, by rfl⟩

/-- C4, amended: `find_path` returns not-found whenever the sender or the
receiver is absent from the node store; a present sender equal to the receiver
instead yields the degenerate single-node path (see the counterexample). -/
theorem claim_c4_absent (net : Network) (s t : String) (a : ℤ) (fuel : ℕ)
    (h : (alookup s net.nodes).isNone = true ∨ (alookup t net.nodes).isNone = true) :
    net.find_path s t a fuel = none := by
  have hc : ((alookup s net.nodes).isNone || (alookup t net.nodes).isNone) = true := by
    rcases h with h | h
    · rw [h, Bool.true_or]
    · rw [h, Bool.or_true]
  rw [Network.find_path, if_pos hc]

/-- Witness for the amended C4: node "B" is absent from the one-node network. -/
theorem claim_c4_witness : netA.find_path "A" "B" 7 10 = none :=
  claim_c4_absent netA "A" "B" 7 10 (Or.inr (by decide))

/-- C10: on `netSilent`, `execute_payment A C 100` succeeds with `(true, 10)`
although the `B-C` hop's balance update was a silent no-op: the search
admitted `B` with the label 100 against balance 105, but execution forwarded
`100 + fee = 110`.  The `B-C` balances are unchanged afterwards, so the
receiver's balance did not increase by the paid amount. -/
theorem claim_c10_silent_success :
    netSilent.find_path "A" "C" 100 10 = some ⟨["A", "B", "C"], 110⟩ ∧
      (netSilent.execute_payment "A" "C" 100 10).map (fun r => (r.2.1, r.2.2)) =
        some (true, 10) ∧
      (alookup "B-C" netSilent.channels).map
        (fun c => (c.can_forward "B" 100, c.update_balances "B" 110 == some c)) =
        some (some true, true) ∧
      ((netSilent.execute_payment "A" "C" 100 10).bind
        (fun r => alookup "B-C" r.1.channels)).map
        (fun c => (c.balance_a, c.balance_b)) = some (105, 95) :=
  ⟨by rfl, by rfl, by rfl, by rfl⟩

/-- C2 as stated is false: on `netSilent`, executing `A → C` for 100 raises
`fee_earned` on `B-C` from 0 to 10 although that hop's forward moved no
balance at all (the silent no-op of C10). -/
theorem claim_c2_counterexample :
    (alookup "B-C" netSilent.channels).map
      (fun c => (c.balance_a, c.balance_b, c.fee_earned)) = some (105, 95, 0) ∧
      ((netSilent.execute_payment "A" "C" 100 10).bind
        (fun r => alookup "B-C" r.1.channels)).map
        (fun c => (c.balance_a, c.balance_b, c.fee_earned)) = some (105, 95, 10) :=
  ⟨by rfl, by rfl⟩

/-! ## Preservation of the balance/capacity invariant (C1) -/

theorem update_balances_fields {c c2 : Channel} {f : String} {amt : ℤ}
    (h : c.update_balances f amt = some c2) :
    c2.node_a = c.node_a ∧ c2.node_b = c.node_b ∧ c2.base_fee = c.base_fee ∧
      c2.fee_rate = c.fee_rate ∧ c2.fee_earned = c.fee_earned ∧
      c2.capacity = c.capacity ∧ c2.channel_id = c.channel_id := by
  rw [Channel.update_balances] at h
  split at h <;> [skip; split at h]
  · split at h <;> cases h <;> exact ⟨rfl, rfl, rfl, rfl, rfl, rfl, rfl⟩
  · split at h <;> cases h <;> exact ⟨rfl, rfl, rfl, rfl, rfl, rfl, rfl⟩
  · cases h

theorem update_balances_inv {c c2 : Channel} {f : String} {amt : ℤ} (hc : ChannelInv c)
    (ha : 0 ≤ amt) (h : c.update_balances f amt = some c2) : ChannelInv c2 := by
  obtain ⟨hsum, hba, hbb, hbf, hfr⟩ := hc
  rw [Channel.update_balances] at h
  split at h <;> [skip; split at h]
  · split at h <;> cases h
    · exact ⟨hsum, hba, hbb, hbf, hfr⟩
    · refine ⟨by simpa using hsum, by simp; omega, by simp; omega, hbf, hfr⟩
  · split at h <;> cases h
    · exact ⟨hsum, hba, hbb, hbf, hfr⟩
    · refine ⟨by simp; omega, by simp; omega, by simp; omega, hbf, hfr⟩
  · cases h

theorem netInv_lookup {net : Network} {cid : String} {ch : Channel} (hinv : NetInv net)
    (h : alookup cid net.channels = some ch) : ChannelInv ch :=
  hinv _ (alookup_mem h)

theorem netInv_setChannel {net : Network} {k : String} {c : Channel} (hinv : NetInv net)
    (hc : ChannelInv c) : NetInv (net.setChannel k c) := by
  intro p hp
  rw [Network.setChannel] at hp
  simp only [aset, List.mem_map] at hp
  obtain ⟨q, hq, he⟩ := hp
  by_cases h1 : q.1 = k
  · rw [if_pos h1] at he
    rw [← he]
    exact hc
  · rw [if_neg h1] at he
    rw [← he]
    exact hinv q hq

theorem execHops_netInv :
    ∀ (hops : List (String × String)) (net : Network) (cur : ℤ), NetInv net → 0 ≤ cur →
      NetInv (execHops net cur hops).1 := by
  intro hops
  induction hops with
  | nil => intro net cur h _; exact h
  | cons p rest ih =>
    intro net cur hinv hcur
    obtain ⟨s, r⟩ := p
    rw [execHops]
    cases hch : alookup (chanKey s r) net.channels with
    | none => exact hinv
    | some ch =>
      simp only
      cases hnd : alookup s net.nodes with
      | none => exact hinv
      | some nd =>
        simp only
        cases hup : ch.update_balances s (cur + ch.calculate_fee cur) with
        | none => exact hinv
        | some ch2 =>
          simp only
          have hci := netInv_lookup hinv hch
          have hfee : 0 ≤ ch.calculate_fee cur :=
            calculate_fee_nonneg ch cur hci.2.2.2.1 hci.2.2.2.2 hcur
          have hinv2 := update_balances_inv hci (by omega) hup
          refine ih _ _ (netInv_setChannel hinv ?_) (by omega)
          obtain ⟨hsum, hba, hbb, hbf, hfr⟩ := hinv2
          exact ⟨hsum, hba, hbb, hbf, hfr⟩

theorem netInv_add_node (net : Network) (id : String) (hinv : NetInv net) :
    NetInv (net.add_node id).1 := by
  rw [Network.add_node]
  split
  · exact hinv
  · exact hinv

theorem netInv_add_channel (net : Network) (aId bId : String) (cap bA bB bf : ℤ) (r : ℚ)
    (hinv : NetInv net) (hbA : 0 ≤ bA) (hbB : 0 ≤ bB) (hbf : 0 ≤ bf) (hr : 0 ≤ r) :
    NetInv (net.add_channel aId bId cap bA bB bf r).1 := by
  rw [Network.add_channel]
  have happ : ∀ cid ch, bA + bB = cap → ChannelInv ch →
      NetInv { net with channels := net.channels ++ [(cid, ch)] } := by
    intro cid ch hcap hch p hp
    rcases List.mem_append.mp hp with h | h
    · exact hinv p h
    · rw [List.mem_singleton] at h
      rw [h]
      exact hch
  cases h1 : alookup aId net.nodes with
  | none => exact hinv
  | some na =>
    cases h2 : alookup bId net.nodes with
    | none => exact hinv
    | some nb =>
      simp only
      split
      · exact hinv
      · split
        · exact hinv
        · rename_i hcap
          rw [not_ne_iff] at hcap
          have hch : ChannelInv ⟨aId, bId, cap, bA, bB, bf, r, chanKey aId bId, 0⟩ :=
            ⟨hcap, hbA, hbB, hbf, hr⟩
          split
          · exact happ _ _ hcap hch
          · split
            · exact happ _ _ hcap hch
            · split
              · exact happ _ _ hcap hch
              · exact happ _ _ hcap hch

theorem netInv_change_fee (net : Network) (nodeId otherId : String) (bf : ℤ) (r : ℚ)
    (hinv : NetInv net) (hbf : 0 ≤ bf) (hr : 0 ≤ r) :
    NetInv (net.change_fee nodeId otherId bf r).1 := by
  rw [Network.change_fee]
  cases h1 : alookup nodeId net.nodes with
  | none => exact hinv
  | some nd =>
    simp only
    cases h2 : alookup otherId nd.channels with
    | none => exact hinv
    | some cid =>
      simp only
      cases h3 : alookup cid net.channels with
      | none => exact hinv
      | some ch =>
        have hci := netInv_lookup hinv h3
        exact netInv_setChannel hinv ⟨hci.1, hci.2.1, hci.2.2.1, hbf, hr⟩

theorem netInv_execute_run (net : Network) (s t : String) (a : ℤ) (fuel : ℕ)
    (hinv : NetInv net) (ha : 0 ≤ a) : NetInv (net.execute_payment_run s t a fuel).1 := by
  rw [Network.execute_payment_run]
  cases net.find_path s t a fuel with
  | none => exact hinv
  | some info => exact execHops_netInv _ _ _ hinv ha

theorem netInv_foldl_run (fuel : ℕ) :
    ∀ (txs : List Tx) (net : Network), NetInv net → (∀ tx ∈ txs, 0 ≤ tx.2.2) →
      NetInv (txs.foldl (fun n tx => (n.execute_payment_run tx.1 tx.2.1 tx.2.2 fuel).1) net) := by
  intro txs
  induction txs with
  | nil => intro net h _; exact h
  | cons tx rest ih =>
    intro net hinv hval
    rw [List.foldl_cons]
    exact ih _
      (netInv_execute_run net tx.1 tx.2.1 tx.2.2 fuel hinv (hval tx (List.mem_cons_self _ _)))
      (fun q hq => hval q (List.mem_cons_of_mem _ hq))

theorem netInv_applyOp (fuel : ℕ) (op : Op) (net : Network) (hinv : NetInv net)
    (hval : OpValid op) : NetInv (applyOp fuel op net) := by
  cases op with
  | addNode i => exact netInv_add_node net i hinv
  | addChannel aId bId cap bA bB bf r =>
    exact netInv_add_channel net aId bId cap bA bB bf r hinv hval.1 hval.2.1 hval.2.2.1
      hval.2.2.2
  | changeFee nodeId otherId bf r =>
    exact netInv_change_fee net nodeId otherId bf r hinv hval.1 hval.2
  | findPath s t a => exact hinv
  | executePayment s t a => exact netInv_execute_run net s t a fuel hinv hval
  | simulate txs => exact netInv_foldl_run fuel txs net hinv hval

theorem netInv_applyOps (fuel : ℕ) :
    ∀ (ops : List Op) (net : Network), NetInv net → (∀ op ∈ ops, OpValid op) →
      NetInv (applyOps fuel ops net) := by
  intro ops
  induction ops with
  | nil => intro net h _; exact h
  | cons op rest ih =>
    intro net hinv hval
    rw [applyOps, List.foldl_cons]
    exact ih _ (netInv_applyOp fuel op net hinv (hval op (List.mem_cons_self _ _)))
      (fun q hq => hval q (List.mem_cons_of_mem _ hq))

/-- C1: the channel invariant — `balance_a + balance_b = capacity`, both
balances non-negative (together with non-negative fee parameters) — holds
after every sequence of operations with non-negative inputs, from any state
satisfying it; instantiating with the prefixes of a sequence gives the
invariant before and after every single operation.  Channel creation enforces
`balance_a + balance_b = capacity` itself; non-negativity of the created
balances is the claim's hypothesis, carried by `OpValid`. -/
theorem claim_c1_invariant (fuel : ℕ) (ops : List Op) (net : Network) (hinv : NetInv net)
    (hval : ∀ op ∈ ops, OpValid op) : NetInv (applyOps fuel ops net) :=
  netInv_applyOps fuel ops net hinv hval

/-- Witness for C1: the sample operation sequence `opsW` run from the empty
network (whose invariant holds vacuously) ends in a state satisfying the
invariant. -/
theorem claim_c1_witness : NetInv (applyOps 10 opsW Network.init) :=
  claim_c1_invariant 10 opsW Network.init (by decide) (by decide)

/-! ## Monotonicity of `fee_earned` (C2) -/

theorem channels_add_node (net : Network) (id : String) :
    (net.add_node id).1.channels = net.channels := by
  rw [Network.add_node]
  split <;> rfl

theorem execHops_fee_mono :
    ∀ (hops : List (String × String)) (net : Network) (cur : ℤ) (cid : String) (ch : Channel),
      NetInv net → 0 ≤ cur → alookup cid net.channels = some ch →
      ∃ ch2, alookup cid (execHops net cur hops).1.channels = some ch2 ∧
        ch.fee_earned ≤ ch2.fee_earned := by
  intro hops
  induction hops with
  | nil => intro net cur cid ch _ _ hc; exact ⟨ch, hc, le_refl _⟩
  | cons p rest ih =>
    intro net cur cid ch hinv hcur hc
    obtain ⟨s, r⟩ := p
    rw [execHops]
    cases hch : alookup (chanKey s r) net.channels with
    | none => exact ⟨ch, hc, le_refl _⟩
    | some ch0 =>
      simp only
      cases hnd : alookup s net.nodes with
      | none => exact ⟨ch, hc, le_refl _⟩
      | some nd =>
        simp only
        cases hup : ch0.update_balances s (cur + ch0.calculate_fee cur) with
        | none => exact ⟨ch, hc, le_refl _⟩
        | some ch2 =>
          simp only
          have hci := netInv_lookup hinv hch
          have hfee : 0 ≤ ch0.calculate_fee cur :=
            calculate_fee_nonneg ch0 cur hci.2.2.2.1 hci.2.2.2.2 hcur
          have hflds := update_balances_fields hup
          have hinv2 : ChannelInv ch2 := update_balances_inv hci (by omega) hup
          have hinv3 : NetInv (net.setChannel (chanKey s r)
              { ch2 with fee_earned := ch2.fee_earned + ch0.calculate_fee cur }) :=
            netInv_setChannel hinv ⟨hinv2.1, hinv2.2.1, hinv2.2.2.1, hinv2.2.2.2.1,
              hinv2.2.2.2.2⟩
          have hlook : alookup cid (net.setChannel (chanKey s r)
              { ch2 with fee_earned := ch2.fee_earned + ch0.calculate_fee cur }).channels =
              if cid = chanKey s r then
                some { ch2 with fee_earned := ch2.fee_earned + ch0.calculate_fee cur }
              else some ch := by
            rw [Network.setChannel]
            show alookup cid (aset (chanKey s r) _ net.channels) = _
            rw [alookup_aset]
            split
            · rename_i he
              rw [he, hch, Option.map_some']
            · exact hc
          by_cases he : cid = chanKey s r
          · rw [if_pos he] at hlook
            obtain ⟨ch4, h4, hle4⟩ := ih _ (cur + ch0.calculate_fee cur) cid _ hinv3
              (by omega) hlook
            refine ⟨ch4, h4, le_trans ?_ hle4⟩
            have : ch = ch0 := by
              rw [he, hch] at hc
              exact (Option.some_injective _ hc).symm
            rw [this]
            simp only
            rw [hflds.2.2.2.2.1]
            omega
          · rw [if_neg he] at hlook
            exact ih _ (cur + ch0.calculate_fee cur) cid _ hinv3 (by omega) hlook

theorem fee_mono_applyOp (fuel : ℕ) (op : Op) (net : Network) (cid : String) (ch : Channel)
    (hinv : NetInv net) (hval : OpValid op) (hc : alookup cid net.channels = some ch) :
    ∃ ch2, alookup cid (applyOp fuel op net).channels = some ch2 ∧
      ch.fee_earned ≤ ch2.fee_earned := by
  cases op with
  | addNode i =>
    rw [applyOp, channels_add_node]
    exact ⟨ch, hc, le_refl _⟩
  | addChannel aId bId cap bA bB bf r =>
    rw [applyOp, Network.add_channel]
    cases alookup aId net.nodes with
    | none => exact ⟨ch, hc, le_refl _⟩
    | some na =>
      cases alookup bId net.nodes with
      | none => exact ⟨ch, hc, le_refl _⟩
      | some nb =>
        simp only
        split
        · exact ⟨ch, hc, le_refl _⟩
        · split
          · exact ⟨ch, hc, le_refl _⟩
          · split
            · exact ⟨ch, alookup_append_some hc, le_refl _⟩
            · split
              · exact ⟨ch, alookup_append_some hc, le_refl _⟩
              · split
                · exact ⟨ch, alookup_append_some hc, le_refl _⟩
                · exact ⟨ch, alookup_append_some hc, le_refl _⟩
  | changeFee nodeId otherId bf r =>
    rw [applyOp, Network.change_fee]
    cases alookup nodeId net.nodes with
    | none => exact ⟨ch, hc, le_refl _⟩
    | some nd =>
      simp only
      cases alookup otherId nd.channels with
      | none => exact ⟨ch, hc, le_refl _⟩
      | some cid2 =>
        simp only
        cases h3 : alookup cid2 net.channels with
        | none => exact ⟨ch, hc, le_refl _⟩
        | some ch3 =>
          simp only [Network.setChannel]
          show ∃ ch2, alookup cid (aset cid2 _ net.channels) = some ch2 ∧ _
          rw [alookup_aset]
          by_cases he : cid = cid2
          · rw [if_pos he, hc, Option.map_some']
            refine ⟨_, rfl, ?_⟩
            have : ch = ch3 := by
              rw [he, h3] at hc
              exact (Option.some_injective _ hc).symm
            rw [this]
          · rw [if_neg he]
            exact ⟨ch, hc, le_refl _⟩
  | findPath s t a => exact ⟨ch, hc, le_refl _⟩
  | executePayment s t a =>
    rw [applyOp, Network.execute_payment_run]
    cases net.find_path s t a fuel with
    | none => exact ⟨ch, hc, le_refl _⟩
    | some info => exact execHops_fee_mono _ net a cid ch hinv hval hc
  | simulate txs =>
    rw [applyOp]
    induction txs generalizing net ch with
    | nil => exact ⟨ch, hc, le_refl _⟩
    | cons tx rest ih =>
      rw [List.foldl_cons]
      have h1 : ∃ ch2, alookup cid (net.execute_payment_run tx.1 tx.2.1 tx.2.2 fuel).1.channels
          = some ch2 ∧ ch.fee_earned ≤ ch2.fee_earned := by
        rw [Network.execute_payment_run]
        cases net.find_path tx.1 tx.2.1 tx.2.2 fuel with
        | none => exact ⟨ch, hc, le_refl _⟩
        | some info =>
          exact execHops_fee_mono _ net tx.2.2 cid ch hinv
            (hval tx (List.mem_cons_self _ _)) hc
      obtain ⟨ch2, hc2, hle2⟩ := h1
      obtain ⟨ch4, hc4, hle4⟩ := ih _ ch2
        (netInv_execute_run net tx.1 tx.2.1 tx.2.2 fuel hinv (hval tx (List.mem_cons_self _ _)))
        hc2 (fun q hq => hval q (List.mem_cons_of_mem _ hq))
      exact ⟨ch4, hc4, le_trans hle2 hle4⟩

theorem fee_mono_applyOps (fuel : ℕ) :
    ∀ (ops : List Op) (net : Network) (cid : String) (ch : Channel), NetInv net →
      (∀ op ∈ ops, OpValid op) → alookup cid net.channels = some ch →
      ∃ ch2, alookup cid (applyOps fuel ops net).channels = some ch2 ∧
        ch.fee_earned ≤ ch2.fee_earned := by
  intro ops
  induction ops with
  | nil => intro net cid ch _ _ hc; exact ⟨ch, hc, le_refl _⟩
  | cons op rest ih =>
    intro net cid ch hinv hval hc
    rw [applyOps, List.foldl_cons]
    obtain ⟨ch2, hc2, hle2⟩ :=
      fee_mono_applyOp fuel op net cid ch hinv (hval op (List.mem_cons_self _ _)) hc
    obtain ⟨ch4, hc4, hle4⟩ := ih _ cid ch2
      (netInv_applyOp fuel op net hinv (hval op (List.mem_cons_self _ _)))
      (fun q hq => hval q (List.mem_cons_of_mem _ hq)) hc2
    exact ⟨ch4, hc4, le_trans hle2 hle4⟩

/-- C2, amended: across every sequence of operations with non-negative inputs
the channel stays in the store and its `fee_earned` never decreases.  The
second half of the original claim is false (see the counterexample): during
`execute_payment`, `fee_earned` grows by the hop's `calculate_fee` for every
processed hop, whether or not the balance update actually moved balance. -/
theorem claim_c2_fee_nondecreasing (fuel : ℕ) (ops : List Op) (net : Network) (cid : String)
    (ch : Channel) (hinv : NetInv net) (hval : ∀ op ∈ ops, OpValid op)
    (hc : alookup cid net.channels = some ch) :
    ∃ ch2, alookup cid (applyOps fuel ops net).channels = some ch2 ∧
      ch.fee_earned ≤ ch2.fee_earned :=
  fee_mono_applyOps fuel ops net cid ch hinv hval hc

/-- Witness for the amended C2: the `B-C` channel of the end-to-end network
survives the sample payment with a non-negative `fee_earned` delta. -/
theorem claim_c2_witness :
    ((alookup "B-C" (applyOps 10 [Op.executePayment "A" "C" 100] net3).channels).map
      (fun c2 => decide ((0 : ℤ) ≤ c2.fee_earned))).getD false = true := by
  obtain ⟨ch2, hc2, hle2⟩ := claim_c2_fee_nondecreasing 10 [Op.executePayment "A" "C" 100]
    net3 "B-C" ⟨"B", "C", 1000, 500, 500, 10, mkRat 1 100, "B-C", 0⟩ (by decide) (by decide)
    (by rfl)
  rw [hc2]
  simp only [Option.map_some', Option.getD_some]
  exact decide_eq_true hle2

/-! ## The sequential simulation log (C8) -/

theorem execute_payment_net {net net2 : Network} {s t : String} {a : ℤ} {fuel : ℕ}
    {b : Bool} {f : ℤ} (h : net.execute_payment s t a fuel = some (net2, b, f)) :
    net2 = (net.execute_payment_run s t a fuel).1 := by
  rw [Network.execute_payment] at h
  rcases hrun : net.execute_payment_run s t a fuel with ⟨netr, oc⟩
  rw [hrun] at h
  match oc with
  | none => cases h; rfl
  | some (.ok, fees) => cases h; rfl
  | some (.missingChannel, fees) => cases h; rfl
  | some (.missingNode, fees) => cases h
  | some (.badEndpoint, fees) => cases h

theorem process_tx_spec {tm tm2 : TransactionManager} {f t : String} {a : ℤ} {fuel : ℕ}
    (h : tm.process_tx f t a fuel = some tm2) :
    tm2.network = (tm.network.execute_payment_run f t a fuel).1 ∧
      tm2.transaction_queue = tm.transaction_queue ∧
      tm2.log = tm.log ++ [txLine tm.network (f, t, a) fuel] := by
  rw [TransactionManager.process_tx] at h
  cases hex : tm.network.execute_payment f t a fuel with
  | none => rw [hex] at h; cases h
  | some r =>
    obtain ⟨net2, success, fees⟩ := r
    rw [hex] at h
    simp only at h
    cases h
    refine ⟨(execute_payment_net hex).symm ▸ rfl, rfl, ?_⟩
    have hline : (if success = true then successLine f t a fees else failLine f t a) =
        txLine tm.network (f, t, a) fuel := by
      rw [txLine, hex]
      cases success
      · rw [if_neg (by simp)]
      · rw [if_pos rfl]
    rw [hline]

theorem logOf_length (fuel : ℕ) :
    ∀ (txs : List Tx) (net : Network), (logOf fuel net txs).length = txs.length := by
  intro txs
  induction txs with
  | nil => intro net; rfl
  | cons tx rest ih =>
    intro net
    rw [logOf, List.length_cons, List.length_cons, ih]

theorem logOf_get (fuel : ℕ) :
    ∀ (txs : List Tx) (net : Network) (i : ℕ),
      (logOf fuel net txs)[i]? = (txs[i]?).map
        (fun tx => txLine (netAfter fuel net (txs.take i)) tx fuel) := by
  intro txs
  induction txs with
  | nil => intro net i; rfl
  | cons tx rest ih =>
    intro net i
    cases i with
    | zero => simp [logOf, netAfter]
    | succ j =>
      rw [logOf, List.getElem?_cons_succ, List.getElem?_cons_succ, ih]
      rfl

theorem simLoop_spec (fuel : ℕ) :
    ∀ (txs : List Tx) (tm tm1 : TransactionManager), simLoop fuel tm txs = some tm1 →
      tm1.network = netAfter fuel tm.network txs ∧
      tm1.transaction_queue = tm.transaction_queue ∧
      tm1.log = tm.log ++ logOf fuel tm.network txs := by
  intro txs
  induction txs with
  | nil =>
    intro tm tm1 h
    rw [simLoop] at h
    cases h
    exact ⟨rfl, rfl, (List.append_nil _).symm⟩
  | cons tx rest ih =>
    intro tm tm1 h
    obtain ⟨f, t, a⟩ := tx
    rw [simLoop] at h
    cases hp : tm.process_tx f t a fuel with
    | none => rw [hp] at h; cases h
    | some tm2 =>
      rw [hp] at h
      simp only at h
      obtain ⟨hnet, hq, hlog⟩ := process_tx_spec hp
      obtain ⟨hnet1, hq1, hlog1⟩ := ih tm2 tm1 h
      refine ⟨?_, hq1.trans hq, ?_⟩
      · rw [hnet1, hnet]
        rfl
      · rw [hlog1, hlog, hnet, logOf, List.append_assoc]
        rfl

/-- C8: whenever the sequential simulation returns, its log has exactly one
entry per queued transaction, in enqueue order: entry `i` is the exact
success line `"Transaction {from} -> {to} ({amount} sat, total fees: {fees}
sat): Success"` or failure line `"Transaction {from} -> {to} ({amount} sat):
Failed"` (as `txLine`) of queued transaction `i` executed against the state
reached by the prefix before it; the old log is discarded (cleared), the new
log is returned, and the queue is drained. -/
theorem claim_c8_sequential_log (tm tm2 : TransactionManager) (log : List String)
    (fuel i : ℕ) (hsim : tm.simulate false fuel = some (tm2, log)) :
    log.length = tm.transaction_queue.length ∧ tm2.transaction_queue = [] ∧
      tm2.log = log ∧
      log[i]? = (tm.transaction_queue[i]?).map
        (fun tx => txLine (netAfter fuel tm.network (tm.transaction_queue.take i)) tx fuel) := by
  rw [TransactionManager.simulate, if_neg (by simp)] at hsim
  cases h1 : simLoop fuel { tm with log := [] } tm.transaction_queue with
  | none => rw [h1] at hsim; cases hsim
  | some tm1 =>
    rw [h1] at hsim
    simp only at hsim
    cases hsim
    obtain ⟨hnet, hq, hlog⟩ := simLoop_spec fuel _ _ _ h1
    have hlog2 : tm1.log = logOf fuel tm.network tm.transaction_queue := by
      rw [hlog]
      rfl
    refine ⟨?_, rfl, rfl, ?_⟩
    · rw [hlog2, logOf_length]
    · rw [hlog2, logOf_get]

/-- Witness for C8 on the sample manager `tmW` at index 0. -/
theorem claim_c8_witness :
    logW.length = tmW.transaction_queue.length ∧ tmW2.transaction_queue = [] ∧
      tmW2.log = logW ∧
      logW[0]? = (tmW.transaction_queue[0]?).map
        (fun tx => txLine (netAfter 10 tmW.network (tmW.transaction_queue.take 0)) tx 10) :=
  claim_c8_sequential_log tmW tmW2 logW 10 0 (by rfl)

/-! ## The canonical key is symmetric -/

theorem charListLt_asymm : ∀ x y : List Char, charListLt x y = true → charListLt y x = false
  | [], [] => by intro h; cases h
  | [], _ :: _ => by intro _; rfl
  | _ :: _, [] => by intro h; cases h
  | a :: as, b :: bs => by
    intro h
    rw [charListLt] at h ⊢
    rcases lt_trichotomy a b with hab | hab | hab
    · rw [if_neg (not_lt.mpr (le_of_lt hab)), if_pos hab]
    · rw [hab] at h ⊢
      rw [if_neg (lt_irrefl b), if_neg (lt_irrefl b)] at h ⊢
      exact charListLt_asymm as bs h
    · rw [if_neg (not_lt.mpr (le_of_lt hab)), if_pos hab] at h
      cases h

theorem charListLt_eq : ∀ x y : List Char, charListLt x y = false → charListLt y x = false →
    x = y
  | [], [] => by intro _ _; rfl
  | [], _ :: _ => by intro h _; cases h
  | _ :: _, [] => by intro _ h; cases h
  | a :: as, b :: bs => by
    intro h1 h2
    rw [charListLt] at h1 h2
    rcases lt_trichotomy a b with hab | hab | hab
    · rw [if_pos hab] at h1; cases h1
    · rw [hab] at h1 h2 ⊢
      rw [if_neg (lt_irrefl b), if_neg (lt_irrefl b)] at h1 h2
      rw [charListLt_eq as bs h1 h2]
    · rw [if_pos hab] at h2; cases h2

theorem pyStrLt_asymm {a b : String} (h : pyStrLt a b = true) : pyStrLt b a = false :=
  charListLt_asymm a.data b.data h

theorem pyStrLt_eq {a b : String} (h1 : pyStrLt a b = false) (h2 : pyStrLt b a = false) :
    a = b := by
  cases a with
  | mk xs =>
    cases b with
    | mk ys =>
      rw [charListLt_eq xs ys h1 h2]

theorem chanKey_comm (a b : String) : chanKey a b = chanKey b a := by
  rw [chanKey, chanKey]
  cases hba : pyStrLt b a with
  | true =>
    rw [if_pos rfl, if_neg (by rw [pyStrLt_asymm hba]; exact Bool.false_ne_true)]
  | false =>
    cases hab : pyStrLt a b with
    | true => rw [if_neg Bool.false_ne_true, if_pos rfl]
    | false =>
      rw [if_neg Bool.false_ne_true, if_neg Bool.false_ne_true, pyStrLt_eq hab hba]

/-! ## Predecessor links of the search point along recorded adjacency (C9, C5) -/

theorem relaxOne_pred (net : Network) (u : String) (q : String × String) (st : RState)
    (hq : ∃ nd, alookup u net.nodes = some nd ∧ q ∈ nd.channels)
    (hp : PredInv net st.2.1) : PredInv net (relaxOne net u q st).2.1 := by
  obtain ⟨dist, pred, pq⟩ := st
  rw [relaxOne]
  cases alookup q.2 net.channels with
  | none => exact hp
  | some channel =>
    simp only
    cases dist u with
    | none => exact hp
    | some fa =>
      simp only
      cases alookup q.1 net.nodes with
      | none => exact hp
      | some nd1 =>
        simp only
        cases channel.can_forward q.1 fa with
        | none => exact hp
        | some b =>
          cases b with
          | false => exact hp
          | true =>
            simp only
            split
            · intro v u2 hv
              simp only at hv
              by_cases he : v = q.1
              · rw [if_pos he] at hv
                cases hv
                obtain ⟨nd, hnd, hmem⟩ := hq
                exact ⟨nd, q.2, hnd, he ▸ hmem⟩
              · rw [if_neg he] at hv
                exact hp v u2 hv
            · exact hp

theorem relaxNbrs_pred (net : Network) (u : String) :
    ∀ (nbrs : List (String × String)) (st : RState),
      (∀ q ∈ nbrs, ∃ nd, alookup u net.nodes = some nd ∧ q ∈ nd.channels) →
      PredInv net st.2.1 → PredInv net (relaxNbrs net u nbrs st).2.1 := by
  intro nbrs
  induction nbrs with
  | nil => intro st _ hp; exact hp
  | cons q rest ih =>
    intro st hq hp
    rw [relaxNbrs]
    exact ih _ (fun q2 hq2 => hq q2 (List.mem_cons_of_mem _ hq2))
      (relaxOne_pred net u q st (hq q (List.mem_cons_self _ _)) hp)

theorem fpLoop_pred (net : Network) :
    ∀ (fuel : ℕ) (dist : String → Option ℤ) (pred : String → Option String)
      (pq : List (ℤ × String)) (res : (String → Option ℤ) × (String → Option String)),
      PredInv net pred → fpLoop net fuel dist pred pq = some res →
      PredInv net res.2 := by
  intro fuel
  induction fuel with
  | zero => intro dist pred pq res _ h; cases h
  | succ fuel ih =>
    intro dist pred pq res hp h
    rw [fpLoop] at h
    cases hpop : popMin pq with
    | none =>
      rw [hpop] at h
      cases h
      exact hp
    | some pr =>
      obtain ⟨⟨cur_dist, u⟩, rest⟩ := pr
      rw [hpop] at h
      simp only at h
      split at h
      · exact ih _ _ _ _ hp h
      · refine ih _ _ _ _ ?_ h
        apply relaxNbrs_pred
        · intro q hq
          cases hnd : alookup u net.nodes with
          | none => rw [hnd] at hq; cases hq
          | some nd =>
            rw [hnd] at hq
            exact ⟨nd, rfl, hq⟩
        · exact hp

theorem reconstruct_spec (pred : String → Option String) :
    ∀ (fuel : ℕ) (cur : String) (p : List String), reconstruct pred fuel cur = some p →
      p.head? = some cur ∧ ∀ pr ∈ p.zip p.tail, pred pr.1 = some pr.2 := by
  intro fuel
  induction fuel with
  | zero => intro cur p h; cases h
  | succ fuel ih =>
    intro cur p h
    rw [reconstruct] at h
    cases hc : pred cur with
    | none =>
      rw [hc] at h
      cases h
      exact ⟨rfl, by intro pr hpr; simp at hpr⟩
    | some nxt =>
      rw [hc] at h
      simp only [Option.map_eq_some'] at h
      obtain ⟨q, hq, rfl⟩ := h
      obtain ⟨hhead, hpairs⟩ := ih nxt q hq
      cases q with
      | nil => cases hhead
      | cons h2 t =>
        rw [List.head?_cons] at hhead
        have hh : h2 = nxt := Option.some_inj.mp hhead
        refine ⟨rfl, ?_⟩
        intro pr hpr
        rw [List.tail_cons, List.zip_cons_cons] at hpr
        rcases List.mem_cons.mp hpr with h3 | h3
        · rw [h3]
          rw [hc, hh]
        · exact hpairs pr h3

/-! ## Well-formedness of constructor-built networks -/

theorem mem_aset {α : Type} {p : String × α} {k : String} {v : α} :
    ∀ {l : List (String × α)}, p ∈ aset k v l →
      (p = (k, v) ∧ ∃ w, (k, w) ∈ l) ∨ (p ∈ l ∧ p.1 ≠ k) := by
  intro l
  induction l with
  | nil => intro h; simp [aset] at h
  | cons x rest ih =>
    intro h
    rw [aset, List.map_cons, ← aset] at h
    rcases List.mem_cons.mp h with h | h
    · by_cases hx : x.1 = k
      · rw [if_pos hx] at h
        exact Or.inl ⟨h, x.2, by rw [← hx]; exact List.mem_cons_self _ _⟩
      · rw [if_neg hx] at h
        exact Or.inr ⟨h ▸ List.mem_cons_self _ _, h ▸ hx⟩
    · rcases ih h with ⟨h1, w, h2⟩ | ⟨h1, h2⟩
      · exact Or.inl ⟨h1, w, List.mem_cons_of_mem _ h2⟩
      · exact Or.inr ⟨List.mem_cons_of_mem _ h1, h2⟩

theorem isSome_append {α : Type} {k : String} {l l2 : List (String × α)}
    (h : (alookup k l).isSome = true) : (alookup k (l ++ l2)).isSome = true := by
  cases hl : alookup k l with
  | none => rw [hl] at h; cases h
  | some v => rw [alookup_append_some hl]; rfl

theorem alookup_append_self {α : Type} (k : String) (v : α) (l : List (String × α)) :
    (alookup k (l ++ [(k, v)])).isSome = true := by
  cases hl : alookup k l with
  | none =>
    rw [alookup_append_none hl, alookup_cons]
    rw [if_pos rfl]
    rfl
  | some w => rw [alookup_append_some hl]; rfl

theorem node_add_channel_spec {nd nd2 : Node} {ch : Channel} (h : nd.add_channel ch = some nd2) :
    ∃ other, ch.get_other_id nd.node_id = some other ∧ alookup other nd.channels = none ∧
      nd2 = { nd with channels := nd.channels ++ [(other, ch.channel_id)] } := by
  rw [Node.add_channel] at h
  split at h
  · cases h
  · cases hg : ch.get_other_id nd.node_id with
    | none => rw [hg] at h; cases h
    | some other =>
      rw [hg] at h
      simp only at h
      split at h
      · cases h
      · rename_i hdup
        cases h
        exact ⟨other, rfl, Option.not_isSome_iff_eq_none.mp hdup, rfl⟩

theorem chanEndpointsOK_append {net : Network} {u v cid : String}
    (nds : List (String × Node)) (l : List (String × Channel))
    (h : chanEndpointsOK net u v cid = true) :
    chanEndpointsOK ⟨nds, net.channels ++ l⟩ u v cid = true := by
  rw [chanEndpointsOK] at h ⊢
  cases hc : alookup cid net.channels with
  | none => rw [hc] at h; cases h
  | some ch =>
    rw [hc] at h
    rw [show alookup cid (Network.mk nds (net.channels ++ l)).channels = some ch from
      alookup_append_some hc]
    exact h

theorem adjEntryOK_lift {net : Network} {u : String} {q : String × String}
    (nds : List (String × Node)) (l : List (String × Channel))
    (hsome : ∀ k, (alookup k net.nodes).isSome = true → (alookup k nds).isSome = true)
    (h : adjEntryOK net u q) : adjEntryOK ⟨nds, net.channels ++ l⟩ u q :=
  ⟨h.1, hsome _ h.2.1, chanEndpointsOK_append nds l h.2.2⟩

theorem wf_init : WFNet Network.init ∧ NodeIdsOK Network.init := by
  constructor
  · intro p hp
    cases hp
  · intro p hp
    cases hp

theorem wf_add_node (net : Network) (id : String) (hwf : WFNet net) (hids : NodeIdsOK net) :
    WFNet (net.add_node id).1 ∧ NodeIdsOK (net.add_node id).1 := by
  rw [Network.add_node]
  split
  · exact ⟨hwf, hids⟩
  · constructor
    · intro p hp q hq
      simp only at hp
      rcases List.mem_append.mp hp with hp | hp
      · have h := hwf p hp q hq
        refine ⟨h.1, ?_, h.2.2⟩
        exact isSome_append h.2.1
      · rw [List.mem_singleton] at hp
        rw [hp] at hq
        cases hq
    · intro p hp
      simp only at hp
      rcases List.mem_append.mp hp with hp | hp
      · exact hids p hp
      · rw [List.mem_singleton] at hp
        rw [hp]

theorem network_add_channel_spec {net : Network} {aId bId : String} {cap bA bB bf : ℤ} {r : ℚ}
    (hok : (net.add_channel aId bId cap bA bB bf r).2 = true) :
    ∃ na na2 nb2 nb3,
      alookup aId net.nodes = some na ∧
      (alookup bId net.nodes).isSome = true ∧
      alookup (chanKey aId bId) net.channels = none ∧
      bA + bB = cap ∧
      na.add_channel ⟨aId, bId, cap, bA, bB, bf, r, chanKey aId bId, 0⟩ = some na2 ∧
      alookup bId (aset aId na2 net.nodes) = some nb2 ∧
      nb2.add_channel ⟨aId, bId, cap, bA, bB, bf, r, chanKey aId bId, 0⟩ = some nb3 ∧
      (net.add_channel aId bId cap bA bB bf r).1 =
        ⟨aset bId nb3 (aset aId na2 net.nodes),
          net.channels ++ [(chanKey aId bId,
            ⟨aId, bId, cap, bA, bB, bf, r, chanKey aId bId, 0⟩)]⟩ := by
  unfold Network.add_channel at hok ⊢
  dsimp only at hok ⊢
  split at hok
  · rename_i ov1 ov2 naV nbV hna hnb
    split at hok
    · cases hok
    · rename_i hdup
      rw [if_neg hdup]
      split at hok
      · cases hok
      · rename_i hcap
        rw [if_neg hcap]
        split at hok
        · cases hok
        · rename_i na2 hna2
          split at hok
          · cases hok
          · rename_i nb2 hnb2
            split at hok
            · cases hok
            · rename_i nb3 hnb3
              exact ⟨naV, na2, nb2, nb3, hna, by rw [hnb]; rfl,
                Option.not_isSome_iff_eq_none.mp hdup, not_ne_iff.mp hcap, hna2, hnb2,
                hnb3, rfl⟩
  · cases hok

theorem wf_add_channel (net : Network) (aId bId : String) (cap bA bB bf : ℤ) (r : ℚ)
    (hwf : WFNet net) (hids : NodeIdsOK net)
    (hok : (net.add_channel aId bId cap bA bB bf r).2 = true) :
    WFNet (net.add_channel aId bId cap bA bB bf r).1 ∧
      NodeIdsOK (net.add_channel aId bId cap bA bB bf r).1 := by
  obtain ⟨na, na2, nb2, nb3, hna, hbsome, hdup, hcap, hna2, hnb2, hnb3, hfin⟩ :=
    network_add_channel_spec hok
  rw [hfin]
  have hnaid : na.node_id = aId := hids (aId, na) (alookup_mem hna)
  obtain ⟨oa, hoa, hoadup, hna2eq⟩ := node_add_channel_spec hna2
  have hoa2 : oa = bId := by
    rw [hnaid, Channel.get_other_id, if_pos rfl] at hoa
    exact (Option.some_inj.mp hoa).symm
  rw [hoa2] at hoadup hna2eq
  have hne : aId ≠ bId := by
    intro he
    have hnb2' := hnb2
    rw [← he, alookup_aset, if_pos rfl, hna, Option.map_some'] at hnb2'
    have hnbna : nb2 = na2 := (Option.some_inj.mp hnb2').symm
    obtain ⟨ob, hob, hobdup, _⟩ := node_add_channel_spec hnb3
    have hnb2id : nb2.node_id = aId := by
      rw [hnbna, hna2eq]
      exact hnaid
    rw [hnb2id, Channel.get_other_id, if_pos rfl] at hob
    have hob2 : ob = bId := (Option.some_inj.mp hob).symm
    rw [hob2] at hobdup
    rw [hnbna, hna2eq] at hobdup
    have := alookup_append_self bId
      (⟨aId, bId, cap, bA, bB, bf, r, chanKey aId bId, 0⟩ : Channel).channel_id na.channels
    rw [show ((⟨aId, bId, cap, bA, bB, bf, r, chanKey aId bId, 0⟩ : Channel)).channel_id =
      chanKey aId bId from rfl] at this
    rw [show ({ na with channels := na.channels ++
      [(bId, (⟨aId, bId, cap, bA, bB, bf, r, chanKey aId bId, 0⟩ : Channel).channel_id)] }
        : Node).channels = na.channels ++ [(bId, chanKey aId bId)] from rfl] at hobdup
    rw [hobdup] at this
    cases this
  have hnb2mem : alookup bId net.nodes = some nb2 := by
    rw [alookup_aset, if_neg (Ne.symm hne)] at hnb2
    exact hnb2
  have hnbid : nb2.node_id = bId := hids (bId, nb2) (alookup_mem hnb2mem)
  obtain ⟨ob, hob, hobdup, hnb3eq⟩ := node_add_channel_spec hnb3
  have hob2 : ob = aId := by
    rw [hnbid, Channel.get_other_id, if_neg (Ne.symm hne), if_pos rfl] at hob
    exact (Option.some_inj.mp hob).symm
  rw [hob2] at hobdup hnb3eq
  have hlift : ∀ k, (alookup k net.nodes).isSome = true →
      (alookup k (aset bId nb3 (aset aId na2 net.nodes))).isSome = true := by
    intro k hk
    rw [alookup_isSome_aset, alookup_isSome_aset]
    exact hk
  have hnewch : alookup (chanKey aId bId) (net.channels ++
      [(chanKey aId bId, (⟨aId, bId, cap, bA, bB, bf, r, chanKey aId bId, 0⟩ : Channel))]) =
      some ⟨aId, bId, cap, bA, bB, bf, r, chanKey aId bId, 0⟩ := by
    rw [alookup_append_none hdup, alookup_cons, if_pos rfl]
  constructor
  · intro p hp q hq
    rcases mem_aset hp with ⟨hpeq, _, _⟩ | ⟨hp2, hpne⟩
    · rw [hpeq] at hq ⊢
      rw [hnb3eq] at hq
      rcases List.mem_append.mp hq with hq | hq
      · exact adjEntryOK_lift _ _ hlift (hwf (bId, nb2) (alookup_mem hnb2mem) q hq)
      · rw [List.mem_singleton] at hq
        rw [hq]
        refine ⟨?_, ?_, ?_⟩
        · exact chanKey_comm aId bId
        · show (alookup aId (aset bId nb3 (aset aId na2 net.nodes))).isSome = true
          rw [alookup_isSome_aset, alookup_isSome_aset, hna]
          rfl
        · rw [chanEndpointsOK]
          rw [show alookup (chanKey aId bId) (Network.mk (aset bId nb3 (aset aId na2 net.nodes))
            (net.channels ++ [(chanKey aId bId,
              (⟨aId, bId, cap, bA, bB, bf, r, chanKey aId bId, 0⟩ : Channel))])).channels =
            some ⟨aId, bId, cap, bA, bB, bf, r, chanKey aId bId, 0⟩ from hnewch]
          simp
    · rcases mem_aset hp2 with ⟨hpeq, _, _⟩ | ⟨hp3, hpne2⟩
      · rw [hpeq] at hq ⊢
        rw [hna2eq] at hq
        rcases List.mem_append.mp hq with hq | hq
        · exact adjEntryOK_lift _ _ hlift (hwf (aId, na) (alookup_mem hna) q hq)
        · rw [List.mem_singleton] at hq
          rw [hq]
          refine ⟨rfl, ?_, ?_⟩
          · show (alookup bId (aset bId nb3 (aset aId na2 net.nodes))).isSome = true
            rw [alookup_isSome_aset, alookup_isSome_aset]
            exact hbsome
          · rw [chanEndpointsOK]
            rw [show alookup (chanKey aId bId) (Network.mk (aset bId nb3 (aset aId na2 net.nodes))
              (net.channels ++ [(chanKey aId bId,
                (⟨aId, bId, cap, bA, bB, bf, r, chanKey aId bId, 0⟩ : Channel))])).channels =
              some ⟨aId, bId, cap, bA, bB, bf, r, chanKey aId bId, 0⟩ from hnewch]
            simp
      · exact adjEntryOK_lift _ _ hlift (hwf p hp3 q hq)
  · intro p hp
    rcases mem_aset hp with ⟨hpeq, _, _⟩ | ⟨hp2, hpne⟩
    · rw [hpeq]
      show nb3.node_id = bId
      rw [hnb3eq]
      exact hnbid
    · rcases mem_aset hp2 with ⟨hpeq, _, _⟩ | ⟨hp3, hpne2⟩
      · rw [hpeq]
        show na2.node_id = aId
        rw [hna2eq]
        exact hnaid
      · exact hids p hp3

theorem built_wf {net : Network} (h : BuiltBy net) : WFNet net ∧ NodeIdsOK net := by
  induction h with
  | init => exact wf_init
  | addNode net id h hok ih => exact wf_add_node net id ih.1 ih.2
  | addChannel net aId bId cap bA bB bf r h hok ih =>
    exact wf_add_channel net aId bId cap bA bB bf r ih.1 ih.2 hok

theorem find_path_pairs {net : Network} {s t : String} {a : ℤ} {fuel : ℕ} {info : PathInfo}
    (h : net.find_path s t a fuel = some info) :
    ∀ pr ∈ info.path.zip info.path.tail, EdgeOK net pr.2 pr.1 := by
  rw [Network.find_path] at h
  split at h
  · cases h
  · cases hfp : fpLoop net fuel (fun x => if x = t then some a else none) (fun _ => none)
        [(a, t)] with
    | none => rw [hfp] at h; cases h
    | some res =>
      rw [hfp] at h
      obtain ⟨dist, pred⟩ := res
      simp only at h
      cases hd : dist s with
      | none => rw [hd] at h; cases h
      | some total =>
        rw [hd] at h
        simp only at h
        cases hrec : reconstruct pred (net.nodes.length + 1) s with
        | none => rw [hrec] at h; cases h
        | some path =>
          rw [hrec] at h
          simp only at h
          split at h
          · cases h
            have hpinv : PredInv net pred := by
              have h0 : PredInv net (fun _ => none) := by
                intro v u hv
                cases hv
              exact fpLoop_pred net fuel _ _ _ (dist, pred) h0 hfp
            intro pr hpr
            exact hpinv pr.1 pr.2 ((reconstruct_spec pred _ _ _ hrec).2 pr hpr)
          · cases h

theorem wf_hop {net : Network} (hwf : WFNet net) {x y : String} (he : EdgeOK net y x) :
    HopOK net x y := by
  obtain ⟨nd, cid, hnd, hmem⟩ := he
  obtain ⟨hkey, hvsome, hep⟩ := hwf (y, nd) (alookup_mem hnd) (x, cid) hmem
  have hkey2 : cid = chanKey y x := hkey
  have hvsome2 : (alookup x net.nodes).isSome = true := hvsome
  refine ⟨hvsome2, ?_⟩
  rw [chanEndpointsOK] at hep
  cases hch : alookup cid net.channels with
  | none => rw [hch] at hep; cases hep
  | some ch =>
    rw [hch] at hep
    refine ⟨ch, ?_, ?_⟩
    · rw [show chanKey x y = cid from by rw [hkey2]; exact chanKey_comm x y]
      exact hch
    · simp only [Bool.or_eq_true, Bool.and_eq_true, beq_iff_eq] at hep
      rcases hep with ⟨h1, h2⟩ | ⟨h1, h2⟩
      · exact Or.inr h2
      · exact Or.inl h1

theorem update_balances_total {c : Channel} {s : String} (amt : ℤ)
    (h : c.node_a = s ∨ c.node_b = s) : ∃ c2, c.update_balances s amt = some c2 := by
  rw [Channel.update_balances]
  by_cases h1 : s = c.node_a
  · rw [if_pos h1]
    split
    · exact ⟨c, rfl⟩
    · exact ⟨_, rfl⟩
  · rcases h with h | h
    · exact absurd h.symm h1
    · rw [if_neg h1, if_pos h.symm]
      split
      · exact ⟨c, rfl⟩
      · exact ⟨_, rfl⟩

theorem hopOK_setChannel {net : Network} {k : String} {cOld cNew : Channel}
    (hold : alookup k net.channels = some cOld) (ha : cNew.node_a = cOld.node_a)
    (hb : cNew.node_b = cOld.node_b) {s r : String} (h : HopOK net s r) :
    HopOK (net.setChannel k cNew) s r := by
  obtain ⟨hs, ch, hch, hep⟩ := h
  refine ⟨hs, ?_⟩
  rw [Network.setChannel]
  show ∃ ch2, alookup (chanKey s r) (aset k cNew net.channels) = some ch2 ∧ _
  rw [alookup_aset]
  by_cases he : chanKey s r = k
  · rw [if_pos he, hch, Option.map_some']
    refine ⟨cNew, rfl, ?_⟩
    have hcc : ch = cOld := by
      rw [he, hold] at hch
      exact (Option.some_inj.mp hch).symm
    rw [ha, hb, ← hcc]
    exact hep
  · rw [if_neg he]
    exact ⟨ch, hch, hep⟩

theorem execHops_ok :
    ∀ (hops : List (String × String)) (net : Network) (cur : ℤ),
      (∀ pr ∈ hops, HopOK net pr.1 pr.2) → (execHops net cur hops).2 = HopOutcome.ok := by
  intro hops
  induction hops with
  | nil => intro net cur _; rfl
  | cons p rest ih =>
    intro net cur hp
    obtain ⟨s, r⟩ := p
    obtain ⟨hs, ch, hch, hep⟩ := hp (s, r) (List.mem_cons_self _ _)
    rw [execHops, hch]
    simp only
    cases hsn : alookup s net.nodes with
    | none => rw [hsn] at hs; cases hs
    | some nd =>
      simp only
      obtain ⟨ch2, hup⟩ := update_balances_total (cur + ch.calculate_fee cur) hep
      rw [hup]
      simp only
      apply ih
      intro pr hpr
      have hflds := update_balances_fields hup
      exact hopOK_setChannel hch (by rw [hflds.1]) (by rw [hflds.2.1])
        (hp pr (List.mem_cons_of_mem _ hpr))

/-- C9: on a network built only through `add_node` / `add_channel`, every
consecutive pair of a path returned by `find_path` has a channel stored under
the lexicographically-sorted-pair key, and therefore the mid-execution abort
branch of `execute_payment` (missing channel, `(false, 0)`) cannot be taken. -/
theorem claim_c9_abort_unreachable (net : Network) (s t : String) (a : ℤ) (fuel : ℕ)
    (info : PathInfo) (hb : BuiltBy net) (h : net.find_path s t a fuel = some info) :
    (∀ pr ∈ info.path.zip info.path.tail,
      (alookup (chanKey pr.1 pr.2) net.channels).isSome = true) ∧
      ((net.execute_payment_run s t a fuel).2.map Prod.fst) ≠ some HopOutcome.missingChannel := by
  have hwf := (built_wf hb).1
  have hpairs := find_path_pairs h
  have hhop : ∀ pr ∈ info.path.zip info.path.tail, HopOK net pr.1 pr.2 :=
    fun pr hpr => wf_hop hwf (hpairs pr hpr)
  have hok2 : (execHops net a ((info.path.zip info.path.tail).reverse)).2 = HopOutcome.ok :=
    execHops_ok _ net a (fun pr hpr => hhop pr (List.mem_reverse.mp hpr))
  constructor
  · intro pr hpr
    obtain ⟨_, ch, hch, _⟩ := hhop pr hpr
    rw [hch]
    rfl
  · rw [Network.execute_payment_run, h]
    simp only
    rcases hex : execHops net a ((info.path.zip info.path.tail).reverse) with ⟨netx, ocx⟩
    rw [hex] at hok2
    simp only at hok2
    rw [hok2]
    simp

/-- Witness for C9: on the end-to-end network `net3`, the scenario payment's
hop walk cannot hit the missing-channel abort. -/
theorem claim_c9_witness :
    ((net3.execute_payment_run "A" "C" 100 10).2.map Prod.fst) ≠
      some HopOutcome.missingChannel := by
  have hb : BuiltBy net3 := by
    refine BuiltBy.addChannel _ "B" "C" 1000 500 500 10 (mkRat 1 100) ?_ (by rfl)
    refine BuiltBy.addChannel _ "A" "B" 1000 500 500 0 0 ?_ (by rfl)
    refine BuiltBy.addNode _ "C" ?_ (by rfl)
    refine BuiltBy.addNode _ "B" ?_ (by rfl)
    refine BuiltBy.addNode _ "A" ?_ (by rfl)
    exact BuiltBy.init
  exact (claim_c9_abort_unreachable net3 "A" "C" 100 10 ⟨["A", "B", "C"], 111⟩ hb (by rfl)).2

theorem chanEndpointsOK_setChannel {net : Network} {k : String} {cOld cNew : Channel}
    (hold : alookup k net.channels = some cOld) (ha : cNew.node_a = cOld.node_a)
    (hb : cNew.node_b = cOld.node_b) {u v cid : String}
    (h : chanEndpointsOK net u v cid = true) :
    chanEndpointsOK (net.setChannel k cNew) u v cid = true := by
  rw [chanEndpointsOK] at h ⊢
  cases hch : alookup cid net.channels with
  | none => rw [hch] at h; cases h
  | some ch =>
    rw [hch] at h
    rw [show alookup cid (net.setChannel k cNew).channels =
      alookup cid (aset k cNew net.channels) from rfl]
    rw [alookup_aset]
    by_cases he : cid = k
    · rw [if_pos he, hch, Option.map_some']
      have hcc : ch = cOld := by
        rw [he, hold] at hch
        exact (Option.some_inj.mp hch).symm
      simp only
      rw [ha, hb, ← hcc]
      exact h
    · rw [if_neg he, hch]
      exact h

theorem wf_setChannel {net : Network} {k : String} {cOld cNew : Channel} (hwf : WFNet net)
    (hold : alookup k net.channels = some cOld) (ha : cNew.node_a = cOld.node_a)
    (hb : cNew.node_b = cOld.node_b) : WFNet (net.setChannel k cNew) := by
  intro p hp q hq
  have h := hwf p hp q hq
  exact ⟨h.1, h.2.1, chanEndpointsOK_setChannel hold ha hb h.2.2⟩

theorem wf_execHops :
    ∀ (hops : List (String × String)) (net : Network) (cur : ℤ), WFNet net →
      WFNet (execHops net cur hops).1 := by
  intro hops
  induction hops with
  | nil => intro net cur h; exact h
  | cons p rest ih =>
    intro net cur hwf
    obtain ⟨s, r⟩ := p
    rw [execHops]
    cases hch : alookup (chanKey s r) net.channels with
    | none => exact hwf
    | some ch =>
      simp only
      cases hnd : alookup s net.nodes with
      | none => exact hwf
      | some nd =>
        simp only
        cases hup : ch.update_balances s (cur + ch.calculate_fee cur) with
        | none => exact hwf
        | some ch2 =>
          simp only
          have hflds := update_balances_fields hup
          exact ih _ _ (wf_setChannel hwf hch (by rw [hflds.1]) (by rw [hflds.2.1]))

/-- `find_path` is pure and the hop walk only replaces channel values with
same-endpoint updates, so payments preserve well-formedness: every state of a
sequential batch over a well-formed network is well-formed. -/
theorem wf_execute_run (net : Network) (s t : String) (a : ℤ) (fuel : ℕ)
    (hwf : WFNet net) : WFNet (net.execute_payment_run s t a fuel).1 := by
  rw [Network.execute_payment_run]
  cases net.find_path s t a fuel with
  | none => exact hwf
  | some info => exact wf_execHops _ net a hwf

/-- C5: on every well-formed network state — all states reachable through the
construction API and any number of payments, since construction establishes
`WFNet` (`built_wf`) and payments preserve it (`wf_execute_run`) — a payment
on which `execute_payment` returns `(false, 0)` leaves the network — every
channel's balances and `fee_earned` — exactly as it was, so repeating it is a
no-op.  (Only the not-found branch can produce `(false, 0)` there: the abort
branch is unreachable, and it is the only failing branch that mutates.) -/
theorem claim_c5_failed_noop (net net2 : Network) (s t : String) (a : ℤ) (fuel : ℕ)
    (hwf : WFNet net) (h : net.execute_payment s t a fuel = some (net2, false, 0)) :
    net2 = net := by
  rw [Network.execute_payment, Network.execute_payment_run] at h
  cases hfp : net.find_path s t a fuel with
  | none =>
    rw [hfp] at h
    simp only at h
    exact (congrArg Prod.fst (Option.some_inj.mp h)).symm
  | some info =>
    rw [hfp] at h
    simp only at h
    have hhop : ∀ pr ∈ info.path.zip info.path.tail, HopOK net pr.1 pr.2 :=
      fun pr hpr => wf_hop hwf (find_path_pairs hfp pr hpr)
    have hok2 : (execHops net a ((info.path.zip info.path.tail).reverse)).2 = HopOutcome.ok :=
      execHops_ok _ net a (fun pr hpr => hhop pr (List.mem_reverse.mp hpr))
    rcases hex : execHops net a ((info.path.zip info.path.tail).reverse) with ⟨netx, ocx⟩
    rw [hex] at h hok2
    simp only at hok2
    rw [hok2] at h
    simp at h

/-- Witness for C5 at a post-payment state: `net3post` already carries
`fee_earned = 11` on `B-C`; an oversized payment of 10000 fails with
`(false, 0)` and hands back exactly `net3post`. -/
theorem claim_c5_witness :
    net3fail = net3post ∧
      (alookup "B-C" net3post.channels).map Channel.fee_earned = some 11 :=
  ⟨claim_c5_failed_noop net3post net3fail "A" "C" 10000 20 (by decide) (by rfl), by rfl⟩
